import Mathlib

/-!
Verification of the comic-reader core (archive extraction, natural filename
ordering, reading-session navigation and zoom, page prefetching, progress
persistence) against its natural-language specification.

Modelling conventions: JavaScript strings are Lean `String`s and are
manipulated through their `List Char` data; `String.prototype.localeCompare`
is modelled as code-point lexicographic comparison; JavaScript numbers that
only ever hold page indices and counts are `Nat`, zoom/pan values are `ℚ`;
`parseInt` on a digit run is exact decimal evaluation; browser-opaque
operations (blob extraction, object-URL creation, image decoding) are
oracle parameters of the extraction and prefetch models.
-/

namespace Comically

/-- The digit test of the regex character class 0-9 used by naturalSort. -/
def isDigitC (c : Char) : Bool := 48 ≤ c.toNat && c.toNat ≤ 57

/-- Accumulating decomposition into maximal same-class runs: acc holds the
current run reversed, a new run starts whenever the digit class changes. -/
def runsAux : List Char → List Char → List (List Char)
  | acc, [] => [acc.reverse]
  | acc, c :: cs =>
    match acc with
    | [] => runsAux [c] cs
    | a :: _ =>
      if isDigitC c == isDigitC a then runsAux (c :: acc) cs
      else acc.reverse :: runsAux [c] cs

/-- Decomposition of a name into maximal digit runs and maximal non-digit
runs, as produced by matching the alternation of a digit-run pattern and a
non-digit-run pattern globally against the string (comicService.ts line 57). -/
def runs : List Char → List (List Char)
  | [] => []
  | c :: cs => runsAux [c] cs

/-- Model of localeCompare (comicService.ts line 69): code-point
lexicographic comparison returning -1, 0 or 1. -/
def lexCmpInt : List Char → List Char → Int
  | [], [] => 0
  | [], _ :: _ => -1
  | _ :: _, [] => 1
  | a :: as, b :: bs =>
    if a.toNat < b.toNat then -1
    else if b.toNat < a.toNat then 1
    else lexCmpInt as bs

/-- The test of the anchored all-digits pattern (comicService.ts line 65):
nonempty and every character a digit. -/
def isDigitRun (p : List Char) : Bool := !p.isEmpty && p.all isDigitC

/-- parseInt base 10 on a digit run (comicService.ts line 66), exact. -/
def digitsVal (p : List Char) : Nat := p.foldl (fun a c => 10 * a + (c.toNat - 48)) 0

/-- One loop-body comparison of naturalSort (comicService.ts lines 65-71):
numeric difference when both parts are digit runs, otherwise localeCompare. -/
def partCmp (a b : List Char) : Int :=
  if isDigitRun a && isDigitRun b then (digitsVal a : Int) - (digitsVal b : Int)
  else lexCmpInt a b

/-- Tail of the positional loop once the left run sequence is exhausted:
the left side is padded with the empty part at every remaining position. -/
def cmpRunsR : List (List Char) → Int
  | [] => 0
  | b :: bs => if partCmp [] b ≠ 0 then partCmp [] b else cmpRunsR bs

/-- Tail of the positional loop once the right run sequence is exhausted. -/
def cmpRunsL : List (List Char) → Int
  | [] => 0
  | a :: as => if partCmp a [] ≠ 0 then partCmp a [] else cmpRunsL as

/-- The loop of naturalSort (comicService.ts lines 61-74): positional
comparison over the two run sequences, padding the shorter one with the
empty part, first non-zero comparison decides; 0 when every position ties. -/
def cmpRuns : List (List Char) → List (List Char) → Int
  | [], bs => cmpRunsR bs
  | a :: as, [] => if partCmp a [] ≠ 0 then partCmp a [] else cmpRunsL as
  | a :: as, b :: bs => if partCmp a b ≠ 0 then partCmp a b else cmpRuns as bs

/-- naturalSort (comicService.ts lines 56-75). -/
def naturalSort (a b : String) : Int := cmpRuns (runs a.data) (runs b.data)

/-- The ordering relation induced by the comparator, as consumed by the
JavaScript sort: a precedes-or-ties b when the comparator is non-positive. -/
def natLeP (a b : String) : Prop := naturalSort a b ≤ 0

instance : DecidableRel natLeP := fun _ _ => Int.decLe _ _

example : naturalSort "page2.jpg" "page10.jpg" = -8 := by decide
example : naturalSort "01" "1" = 0 := by decide
example : naturalSort "page2.jpg" "pagea.jpg" = -1 := by decide
example : runs "page2.jpg".data =
    [['p', 'a', 'g', 'e'], ['2'], ['.', 'j', 'p', 'g']] := by decide

/-- The image-extension allow-list (comicService.ts line 49). -/
def imageExtensions : List String := [".jpg", ".jpeg", ".png", ".gif", ".bmp", ".webp"]

/-- Index of the last dot in a name, none when absent (lastIndexOf). -/
def lastDotIdx : List Char → Option Nat
  | [] => none
  | c :: cs =>
    match lastDotIdx cs with
    | some i => some (i + 1)
    | none => if c = '.' then some 0 else none

/-- isImageFile (comicService.ts lines 48-54): lower-case the name, take the
substring from the last dot (substring clamps the absent-dot index -1 to 0,
so a dotless name is compared whole and never matches), and test membership
in the allow-list. -/
def isImageFile (fileName : String) : Bool :=
  let lower := fileName.data.map Char.toLower
  let extension := String.mk (lower.drop ((lastDotIdx fileName.data).getD 0))
  imageExtensions.contains extension

/-- A ZIP central-directory entry as exposed by the extraction library: its
path within the archive and its directory-marker flag. The entry payload is
reached through the extraction oracle, keyed by entry name. -/
structure ZipEntry where
  name : String
  dir : Bool
  deriving DecidableEq

/-- A materialized page (types.ts): synthesized id, binary payload, display
handle, and ordinal index. -/
structure Page where
  id : String
  data : String
  url : String
  index : Nat
  deriving DecidableEq

/-- The retained and ordered entry names of an archive (comicService.ts
lines 15-20): non-directory entries passing the extension filter, sorted by
the natural comparator. The engine sort is stable and the comparator is a
total preorder, so a stable insertion sort models it. -/
def imageFiles (files : List ZipEntry) : List String :=
  List.insertionSort natLeP
    ((files.filter (fun f => !f.dir && isImageFile f.name)).map ZipEntry.name)

/-- The extraction loop (comicService.ts lines 22-39): the counter i runs
over every retained entry; a page is pushed only when the payload oracle
succeeds, but i advances regardless, so a failed entry leaves a gap in the
surviving indices. extractBlob models the per-entry payload materialization
and mkUrl models object-URL allocation for a payload. -/
def extractLoop (comicId : String) (extractBlob : String → Option String)
    (mkUrl : String → String) : List String → Nat → List Page
  | [], _ => []
  | f :: fs, i =>
    match extractBlob f with
    | some blob =>
        ⟨comicId ++ "-page-" ++ Nat.repr i, blob, mkUrl blob, i⟩ ::
          extractLoop comicId extractBlob mkUrl fs (i + 1)
    | none => extractLoop comicId extractBlob mkUrl fs (i + 1)

/-- extractPagesFromCBR (comicService.ts lines 5-46) on an already-opened
container: filter and order the entries, then run the extraction loop. -/
def extractPagesFromCBR (files : List ZipEntry) (comicId : String)
    (extractBlob : String → Option String) (mkUrl : String → String) : List Page :=
  extractLoop comicId extractBlob mkUrl (imageFiles files) 0

/-- The archive of the extraction-ordering scenario in the spec. -/
def exampleEntries : List ZipEntry :=
  [⟨"003.png", false⟩, ⟨"001.jpg", false⟩, ⟨"cover.txt", false⟩, ⟨"002.webp", false⟩]

example : imageFiles exampleEntries = ["001.jpg", "002.webp", "003.png"] := by decide

/-- A stored reading-progress record (storageService.ts lines 103-123);
lastRead is a timestamp. -/
structure Progress where
  currentPage : Nat
  lastRead : Nat
  deriving DecidableEq

/-- A comic (types.ts). -/
structure Comic where
  id : String
  name : String
  fileId : String
  seriesId : String
  pages : List Page
  currentPage : Nat
  totalPages : Nat
  lastRead : Option Nat
  deriving DecidableEq

/-- Core of downloadAndOpenComic (Library component, lines 138-150): install
the extracted pages with totalPages = pages.length and currentPage = 0, then,
when a saved progress record exists, overwrite currentPage and lastRead with
the stored values, without clamping against the new page count. -/
def openComicCore (comic : Comic) (pages : List Page)
    (progress : Option Progress) : Comic :=
  let updated :=
    { comic with
      pages := pages
      totalPages := pages.length
      currentPage := 0 }
  match progress with
  | some p =>
    { updated with
      currentPage := p.currentPage
      lastRead := some p.lastRead }
  | none => updated

/-- Reading direction (types.ts). -/
inductive Direction
  | ltr
  | rtl
  deriving DecidableEq

/-- Cursor movement of nextPage in single-page mode (ComicReader.tsx lines
183-193): rtl moves back when possible, ltr moves forward when below
totalPages - 1; otherwise the cursor is unchanged. -/
def nextPageIndex (dir : Direction) (totalPages k : Nat) : Nat :=
  match dir with
  | .rtl => if 0 < k then k - 1 else k
  | .ltr => if k < totalPages - 1 then k + 1 else k

/-- Cursor movement of previousPage in single-page mode (ComicReader.tsx
lines 211-221): mirrored direction logic. -/
def previousPageIndex (dir : Direction) (totalPages k : Nat) : Nat :=
  match dir with
  | .rtl => if k < totalPages - 1 then k + 1 else k
  | .ltr => if 0 < k then k - 1 else k

/-- Zoom and pan portion of the reading-session state (ComicReader.tsx
lines 34-35). -/
structure ViewState where
  zoom : ℚ
  posX : ℚ
  posY : ℚ
  deriving DecidableEq

/-- The clamp applied by pinch and ctrl+wheel zoom: Math.max(0.5,
Math.min(5, s)). -/
def clampZoom (s : ℚ) : ℚ := max (1 / 2) (min 5 s)

/-- onPinch (ComicReader.tsx lines 124-138): no-op in continuous mode;
otherwise the zoom is set to the clamped gesture scale and the pan offset is
reset when the new zoom is at most 1. -/
def onPinch (isContinuousMode : Bool) (scale : ℚ) (st : ViewState) : ViewState :=
  if isContinuousMode then st
  else
    let newZoom := clampZoom scale
    if newZoom ≤ 1 then ⟨newZoom, 0, 0⟩ else ⟨newZoom, st.posX, st.posY⟩

/-- onWheel (ComicReader.tsx lines 139-152): only ctrl+wheel zooms, moving
the zoom by -dy/1000 before clamping, resetting the pan offset when the new
zoom is at most 1. -/
def onWheel (isContinuousMode ctrlKey : Bool) (dy : ℚ) (st : ViewState) : ViewState :=
  if isContinuousMode then st
  else if ctrlKey then
    let newZoom := clampZoom (st.zoom - dy * (1 / 1000))
    if newZoom ≤ 1 then ⟨newZoom, 0, 0⟩ else ⟨newZoom, st.posX, st.posY⟩
  else st

/-- zoomIn (ComicReader.tsx lines 235-242): multiply by 1.5, capped at 5; the
pan offset is left as it is. -/
def zoomIn (isContinuousMode : Bool) (st : ViewState) : ViewState :=
  if isContinuousMode then st
  else ⟨min 5 (st.zoom * (3 / 2)), st.posX, st.posY⟩

/-- zoomOut (ComicReader.tsx lines 244-258): divide by 1.5, floored at 0.5,
resetting the pan offset when the new zoom is at most 1. -/
def zoomOut (isContinuousMode : Bool) (st : ViewState) : ViewState :=
  if isContinuousMode then st
  else
    let newZoom := max (1 / 2) (st.zoom / (3 / 2))
    if newZoom ≤ 1 then ⟨newZoom, 0, 0⟩ else ⟨newZoom, st.posX, st.posY⟩

/-- onDrag (ComicReader.tsx lines 117-123): ignored while pinching, at zoom
at most 1, or in continuous mode; otherwise the pan offset is set to the
gesture offset. -/
def onDrag (isContinuousMode pinching : Bool) (x y : ℚ) (st : ViewState) : ViewState :=
  if pinching = true ∨ st.zoom ≤ 1 ∨ isContinuousMode = true then st
  else ⟨st.zoom, x, y⟩

/-- resetView (ComicReader.tsx lines 229-233). -/
def resetView (_ : ViewState) : ViewState := ⟨1, 0, 0⟩

/-- The initial view state (zoom 1, no pan; ComicReader.tsx lines 34-35). -/
def initView : ViewState := ⟨1, 0, 0⟩

/-- The session view invariant: zoom bounded in the half-to-five range and
the pan offset already reset whenever the zoom does not exceed 1. -/
def ViewInv (st : ViewState) : Prop :=
  1 / 2 ≤ st.zoom ∧ st.zoom ≤ 5 ∧ (st.zoom ≤ 1 → st.posX = 0 ∧ st.posY = 0)

/-- preloadImage (comicService.ts lines 77-84): asks the browser to decode
the image behind a display handle; the decode oracle models onload/onerror. -/
def preloadImage (decode : String → Bool) (url : String) : Except String String :=
  if decode url then .ok url else .error url

/-- preloadPages (comicService.ts lines 86-96): slice the page list from
startIndex taking count pages, request a decode of each, and collect every
settled outcome; allSettled never propagates a rejection. -/
def preloadPages (decode : String → Bool) (pages : List Page)
    (startIndex count : Nat) : List (Except String String) :=
  ((pages.drop startIndex).take count).map (fun p => preloadImage decode p.url)

/-- The stored progress map, keyed by comic id, held under the single
comic-progress storage key. -/
abbrev ProgressMap := String → Option Progress

/-- saveComicProgress (storageService.ts lines 103-113): read the whole
progress map (an absent map is treated as empty), set the entry for comicId,
and write the whole map back. -/
def saveComicProgress (store : Option ProgressMap) (comicId : String)
    (progress : Progress) : ProgressMap :=
  let allProgress := store.getD (fun _ => none)
  fun k => if k = comicId then some progress else allProgress k

/-- getComicProgress (storageService.ts lines 115-123): look the comic id up
in the stored map, null when absent. -/
def getComicProgress (store : Option ProgressMap) (comicId : String) : Option Progress :=
  (store.getD (fun _ => none)) comicId

theorem char_eq_of_toNat {c d : Char} (h : c.toNat = d.toNat) : c = d :=
  Char.ext (UInt32.ext h)

theorem lex_self (s : List Char) : lexCmpInt s s = 0 := by
  induction s with
  | nil => rfl
  | cons c cs ih => simp [lexCmpInt, ih]

theorem lex_vals (a b : List Char) :
    lexCmpInt a b = -1 ∨ lexCmpInt a b = 0 ∨ lexCmpInt a b = 1 := by
  induction a generalizing b with
  | nil => cases b <;> simp [lexCmpInt]
  | cons c cs ih =>
    cases b with
    | nil => simp [lexCmpInt]
    | cons d ds =>
      by_cases h1 : c.toNat < d.toNat <;> by_cases h2 : d.toNat < c.toNat <;>
        simp [lexCmpInt, h1, h2, ih ds]

theorem lex_eq_zero_iff (a b : List Char) : lexCmpInt a b = 0 ↔ a = b := by
  induction a generalizing b with
  | nil => cases b <;> simp [lexCmpInt]
  | cons c cs ih =>
    cases b with
    | nil => simp [lexCmpInt]
    | cons d ds =>
      by_cases h1 : c.toNat < d.toNat
      · simp only [lexCmpInt, if_pos h1]
        constructor
        · intro h; exact absurd h (by decide)
        · intro h
          injection h with hc _
          subst hc
          exact absurd h1 (lt_irrefl _)
      · by_cases h2 : d.toNat < c.toNat
        · simp only [lexCmpInt, if_neg h1, if_pos h2]
          constructor
          · intro h; exact absurd h (by decide)
          · intro h
            injection h with hc _
            subst hc
            exact absurd h2 (lt_irrefl _)
        · have hc : c = d := char_eq_of_toNat (by omega)
          subst hc
          simp [lexCmpInt, ih]

theorem lex_neg (a b : List Char) : lexCmpInt a b = - lexCmpInt b a := by
  induction a generalizing b with
  | nil => cases b <;> simp [lexCmpInt]
  | cons c cs ih =>
    cases b with
    | nil => simp [lexCmpInt]
    | cons d ds =>
      by_cases h1 : c.toNat < d.toNat <;> by_cases h2 : d.toNat < c.toNat <;>
        simp [lexCmpInt, h1, h2, ih ds] <;> omega

theorem lex_lt_trans {a b c : List Char} (h1 : lexCmpInt a b < 0)
    (h2 : lexCmpInt b c < 0) : lexCmpInt a c < 0 := by
  induction a generalizing b c with
  | nil =>
    cases c with
    | nil =>
      cases b with
      | nil => exact absurd h1 (by simp [lexCmpInt])
      | cons y ys => exact absurd h2 (by simp [lexCmpInt])
    | cons z zs => simp [lexCmpInt]
  | cons x xs ih =>
    cases b with
    | nil => exact absurd h1 (by simp [lexCmpInt])
    | cons y ys =>
      cases c with
      | nil => exact absurd h2 (by simp [lexCmpInt])
      | cons z zs =>
        simp only [lexCmpInt] at h1 h2 ⊢
        by_cases hxy : x.toNat < y.toNat <;> by_cases hyx : y.toNat < x.toNat <;>
          by_cases hyz : y.toNat < z.toNat <;> by_cases hzy : z.toNat < y.toNat <;>
          by_cases hxz : x.toNat < z.toNat <;> by_cases hzx : z.toNat < x.toNat <;>
          simp only [hxy, hyx, hyz, hzy, hxz, hzx, if_pos, if_neg, if_true,
            if_false] at h1 h2 ⊢ <;>
          first
            | omega
            | exact ih h1 h2

theorem lex_head_le {d e : Char} {ds es : List Char}
    (h : lexCmpInt (d :: ds) (e :: es) < 0) : d.toNat ≤ e.toNat := by
  simp only [lexCmpInt] at h
  by_cases h1 : d.toNat < e.toNat
  · omega
  · by_cases h2 : e.toNat < d.toNat
    · simp [h1, h2] at h
    · omega

theorem lex_nil_right_nonneg (b : List Char) : 0 ≤ lexCmpInt b [] := by
  cases b <;> simp [lexCmpInt]

theorem isDigitC_iff (c : Char) : isDigitC c = true ↔ 48 ≤ c.toNat ∧ c.toNat ≤ 57 := by
  simp [isDigitC]

theorem isDigitC_false_iff (c : Char) :
    isDigitC c = false ↔ c.toNat < 48 ∨ 57 < c.toNat := by
  simp [isDigitC]; omega

/-- Comparison key of a run: digit runs are identified by their numeric
value, other parts by their text. -/
inductive RKey
  | num : Nat → RKey
  | str : List Char → RKey
  deriving DecidableEq

/-- Key abstraction of one part as seen by partCmp. -/
def keyOf (p : List Char) : RKey :=
  if isDigitRun p then .num (digitsVal p) else .str p

/-- Comparison of keys, agreeing in sign with partCmp on homogeneous
parts: a digit run compares with a non-digit part through that part's first
character, which lies wholly below or wholly above the digit range. -/
def kcmp : RKey → RKey → Int
  | .num m, .num n => (m : Int) - (n : Int)
  | .str s, .str t => lexCmpInt s t
  | .num _, .str [] => 1
  | .num _, .str (c :: _) => if c.toNat < 48 then 1 else -1
  | .str [], .num _ => -1
  | .str (c :: _), .num _ => if c.toNat < 48 then -1 else 1

/-- A part is homogeneous: all digits or all non-digits (the empty padding
part qualifies). -/
def GoodPart (p : List Char) : Prop := ∃ b, ∀ c ∈ p, isDigitC c = b

/-- A genuine run: nonempty and homogeneous. -/
def HomRun (r : List Char) : Prop := r ≠ [] ∧ GoodPart r

/-- A key coming from a homogeneous part: any numeric key, or a text key
holding no digit characters. -/
def GoodKey : RKey → Prop
  | .num _ => True
  | .str s => ∀ c ∈ s, isDigitC c = false

theorem isDigitRun_iff (p : List Char) :
    isDigitRun p = true ↔ p ≠ [] ∧ ∀ c ∈ p, isDigitC c = true := by
  cases p <;> simp [isDigitRun]

theorem goodPart_not_digitRun {p : List Char} (hp : GoodPart p)
    (hd : isDigitRun p = false) : ∀ c ∈ p, isDigitC c = false := by
  obtain ⟨b, hb⟩ := hp
  cases b with
  | false => exact hb
  | true =>
    intro c hc
    cases p with
    | nil => cases hc
    | cons a as =>
      exact absurd ((isDigitRun_iff _).2 ⟨by simp, hb⟩) (by simp [hd])

theorem keyOf_good {p : List Char} (hp : GoodPart p) : GoodKey (keyOf p) := by
  unfold keyOf
  by_cases hd : isDigitRun p
  · simp [hd, GoodKey]
  · simp only [hd, if_false, Bool.false_eq_true]
    exact goodPart_not_digitRun hp (by simpa using hd)

theorem partCmp_self (a : List Char) : partCmp a a = 0 := by
  unfold partCmp
  by_cases h : isDigitRun a
  · simp [h]
  · simp [h, lex_self]

theorem partCmp_neg (a b : List Char) : partCmp a b = - partCmp b a := by
  unfold partCmp
  by_cases ha : isDigitRun a <;> by_cases hb : isDigitRun b <;>
    simp [ha, hb, lex_neg a b]

/-- Sign of the mixed comparison: a nonempty all-digit part against a
homogeneous non-digit part compares lexically according to the class of the
other part's first character. -/
theorem lex_digit_mixed {a : List Char} (ha : isDigitRun a = true) :
    ∀ {b : List Char}, (∀ c ∈ b, isDigitC c = false) →
      lexCmpInt a b = kcmp (.num (digitsVal a)) (.str b) := by
  intro b hb
  obtain ⟨hne, hdig⟩ := (isDigitRun_iff a).1 ha
  cases a with
  | nil => exact absurd rfl hne
  | cons x xs =>
    have hx : isDigitC x = true := hdig x (by simp)
    have hx' : 48 ≤ x.toNat ∧ x.toNat ≤ 57 := (isDigitC_iff x).1 hx
    cases b with
    | nil => simp [lexCmpInt, kcmp]
    | cons y ys =>
      have hy : isDigitC y = false := hb y (by simp)
      have hy' : y.toNat < 48 ∨ 57 < y.toNat := (isDigitC_false_iff y).1 hy
      simp only [lexCmpInt, kcmp]
      by_cases hlt : x.toNat < y.toNat
      · have : ¬ y.toNat < 48 := by omega
        simp [hlt, this]
      · have h1 : y.toNat < x.toNat := by omega
        have h2 : y.toNat < 48 := by omega
        simp [hlt, h1, h2]

theorem partCmp_eq_kcmp {a b : List Char} (ha : GoodPart a) (hb : GoodPart b) :
    partCmp a b = kcmp (keyOf a) (keyOf b) := by
  unfold partCmp keyOf
  by_cases da : isDigitRun a <;> by_cases db : isDigitRun b
  · simp [da, db, kcmp]
  · have hb' := goodPart_not_digitRun hb (by simpa using db)
    simp only [da, db, if_pos, if_neg, Bool.and_false, if_true, if_false,
      Bool.false_eq_true, Bool.and_self]
    simpa using lex_digit_mixed da hb'
  · have ha' := goodPart_not_digitRun ha (by simpa using da)
    have := lex_digit_mixed db ha'
    simp only [da, db, Bool.false_and, if_false, if_true, Bool.false_eq_true,
      if_pos, if_neg]
    have hneg : lexCmpInt a b = - lexCmpInt b a := lex_neg a b
    rw [hneg, this]
    cases a with
    | nil => simp [kcmp]
    | cons c cs =>
      simp only [kcmp]
      by_cases hc : c.toNat < 48 <;> simp [hc]
  · simp [da, db, kcmp]

theorem kcmp_eq_zero_iff {a b : RKey} : kcmp a b = 0 ↔ a = b := by
  cases a with
  | num m =>
    cases b with
    | num n => simp [kcmp]; omega
    | str t => cases t with
      | nil => simp [kcmp]
      | cons e es => simp only [kcmp]; by_cases he : e.toNat < 48 <;> simp [he]
  | str s =>
    cases b with
    | num n => cases s with
      | nil => simp [kcmp]
      | cons d ds => simp only [kcmp]; by_cases hd : d.toNat < 48 <;> simp [hd]
    | str t => simp [kcmp, lex_eq_zero_iff]

theorem kcmp_lt_trans {a b c : RKey} (gb : GoodKey b) (gc : GoodKey c)
    (h1 : kcmp a b < 0) (h2 : kcmp b c < 0) : kcmp a c < 0 := by
  cases a with
  | num m =>
    cases b with
    | num n =>
      cases c with
      | num p => simp only [kcmp] at h1 h2 ⊢; omega
      | str t =>
        cases t with
        | nil => simp [kcmp] at h2
        | cons e es =>
          simp only [kcmp] at h2 ⊢
          by_cases he : e.toNat < 48 <;> simp [he] at h2 ⊢
    | str s =>
      cases s with
      | nil => simp [kcmp] at h1
      | cons d ds =>
        simp only [kcmp] at h1
        by_cases hd : d.toNat < 48
        · simp [hd] at h1
        · have hd' : isDigitC d = false := gb d (by simp)
          have hd2 : 57 < d.toNat := by
            rcases (isDigitC_false_iff d).1 hd' with h | h
            · omega
            · exact h
          cases c with
          | num p =>
            simp only [kcmp] at h2
            simp [show ¬ d.toNat < 48 by omega] at h2
          | str t =>
            cases t with
            | nil => exact absurd h2 (by simp [kcmp, lex_nil_right_nonneg])
            | cons e es =>
              have he : d.toNat ≤ e.toNat := lex_head_le (by simpa [kcmp] using h2)
              simp only [kcmp]
              simp [show ¬ e.toNat < 48 by omega]
  | str s =>
    cases b with
    | num n =>
      cases c with
      | num p =>
        cases s with
        | nil => simp [kcmp]
        | cons d ds =>
          simp only [kcmp] at h1 ⊢
          by_cases hd : d.toNat < 48 <;> simp [hd] at h1 ⊢
      | str t =>
        cases t with
        | nil => simp [kcmp] at h2
        | cons e es =>
          simp only [kcmp] at h2
          by_cases he : e.toNat < 48
          · simp [he] at h2
          · cases s with
            | nil => simp [kcmp, lexCmpInt]
            | cons d ds =>
              simp only [kcmp] at h1 ⊢
              by_cases hd : d.toNat < 48
              · simp only [lexCmpInt]
                simp [show d.toNat < e.toNat by omega]
              · simp [hd] at h1
    | str t =>
      cases c with
      | num p =>
        cases t with
        | nil => exact absurd h1 (by simp [kcmp, lex_nil_right_nonneg])
        | cons e es =>
          simp only [kcmp] at h2
          by_cases he : e.toNat < 48
          · cases s with
            | nil => simp [kcmp]
            | cons d ds =>
              have hd : d.toNat ≤ e.toNat := lex_head_le (by simpa [kcmp] using h1)
              simp only [kcmp]
              simp [show d.toNat < 48 by omega]
          · simp [he] at h2
      | str u =>
        simp only [kcmp] at h1 h2 ⊢
        exact lex_lt_trans h1 h2

/-- Every run sequence element is a genuine run. -/
def GoodRuns (rs : List (List Char)) : Prop := ∀ r ∈ rs, HomRun r

theorem partCmp_nil_left {b : List Char} (hb : b ≠ []) : partCmp [] b = -1 := by
  cases b with
  | nil => exact absurd rfl hb
  | cons d ds => simp [partCmp, isDigitRun, lexCmpInt]

theorem partCmp_nil_right {a : List Char} (ha : a ≠ []) : partCmp a [] = 1 := by
  rw [partCmp_neg, partCmp_nil_left ha]
  rfl

theorem cmpRuns_nil_cons {b : List Char} {bs : List (List Char)} (hb : b ≠ []) :
    cmpRuns [] (b :: bs) = -1 := by
  simp [cmpRuns, cmpRunsR, partCmp_nil_left hb]

theorem cmpRuns_cons_nil {a : List Char} {as : List (List Char)} (ha : a ≠ []) :
    cmpRuns (a :: as) [] = 1 := by
  simp [cmpRuns, partCmp_nil_right ha]

theorem cmpRunsR_neg (bs : List (List Char)) : cmpRunsR bs = - cmpRunsL bs := by
  induction bs with
  | nil => rfl
  | cons b bs ih =>
    simp only [cmpRunsR, cmpRunsL, partCmp_neg ([] : List Char) b, ih]
    by_cases h : partCmp b [] = 0 <;> simp [h]

theorem cmpRuns_neg (xs ys : List (List Char)) : cmpRuns xs ys = - cmpRuns ys xs := by
  induction xs generalizing ys with
  | nil =>
    cases ys with
    | nil => rfl
    | cons y ys' =>
      show cmpRunsR (y :: ys') = - cmpRuns (y :: ys') []
      simp only [cmpRunsR, cmpRuns, partCmp_neg ([] : List Char) y, cmpRunsR_neg]
      by_cases h : partCmp y [] = 0 <;> simp [h]
  | cons x xs ih =>
    cases ys with
    | nil =>
      show cmpRuns (x :: xs) [] = - cmpRunsR (x :: xs)
      simp only [cmpRuns, cmpRunsR, partCmp_neg ([] : List Char) x, cmpRunsR_neg]
      by_cases h : partCmp x [] = 0 <;> simp [h]
    | cons y ys' =>
      simp only [cmpRuns, partCmp_neg x y, ih]
      by_cases h : partCmp y x = 0 <;> simp [h]

theorem partCmp_lt_trans {a b c : List Char} (ga : GoodPart a) (gb : GoodPart b)
    (gc : GoodPart c) (h1 : partCmp a b < 0) (h2 : partCmp b c < 0) :
    partCmp a c < 0 := by
  rw [partCmp_eq_kcmp ga gc]
  rw [partCmp_eq_kcmp ga gb] at h1
  rw [partCmp_eq_kcmp gb gc] at h2
  exact kcmp_lt_trans (keyOf_good gb) (keyOf_good gc) h1 h2

theorem partCmp_eq_zero_key {a b : List Char} (ga : GoodPart a) (gb : GoodPart b) :
    partCmp a b = 0 ↔ keyOf a = keyOf b := by
  rw [partCmp_eq_kcmp ga gb]
  exact kcmp_eq_zero_iff

theorem cmpRuns_le_trans {xs ys zs : List (List Char)} (gx : GoodRuns xs)
    (gy : GoodRuns ys) (gz : GoodRuns zs)
    (h1 : cmpRuns xs ys ≤ 0) (h2 : cmpRuns ys zs ≤ 0) : cmpRuns xs zs ≤ 0 := by
  induction xs generalizing ys zs with
  | nil =>
    cases zs with
    | nil => simp [cmpRuns, cmpRunsR]
    | cons z zs' =>
      rw [cmpRuns_nil_cons (gz z (by simp)).1]
      omega
  | cons x xs' ih =>
    have hx : HomRun x := gx x (by simp)
    cases ys with
    | nil =>
      rw [cmpRuns_cons_nil hx.1] at h1
      omega
    | cons y ys' =>
      have hy : HomRun y := gy y (by simp)
      cases zs with
      | nil =>
        rw [cmpRuns_cons_nil hy.1] at h2
        omega
      | cons z zs' =>
        have hz : HomRun z := gz z (by simp)
        have gx' : GoodRuns xs' := fun r hr => gx r (by simp [hr])
        have gy' : GoodRuns ys' := fun r hr => gy r (by simp [hr])
        have gz' : GoodRuns zs' := fun r hr => gz r (by simp [hr])
        simp only [cmpRuns] at h1 h2 ⊢
        by_cases e1 : partCmp x y = 0
        · have hk1 : keyOf x = keyOf y := (partCmp_eq_zero_key hx.2 hy.2).1 e1
          rw [if_neg (by simpa using e1)] at h1
          by_cases e2 : partCmp y z = 0
          · have hk2 : keyOf y = keyOf z := (partCmp_eq_zero_key hy.2 hz.2).1 e2
            have e3 : partCmp x z = 0 :=
              (partCmp_eq_zero_key hx.2 hz.2).2 (hk1.trans hk2)
            rw [if_neg (by simpa using e3)]
            rw [if_neg (by simpa using e2)] at h2
            exact ih gx' gy' gz' h1 h2
          · rw [if_pos e2] at h2
            have hyz : partCmp y z < 0 := lt_of_le_of_ne h2 e2
            have hxz : partCmp x z < 0 := by
              rw [partCmp_eq_kcmp hx.2 hz.2, hk1]
              rw [partCmp_eq_kcmp hy.2 hz.2] at hyz
              exact hyz
            split
            · omega
            · omega
        · rw [if_pos e1] at h1
          have hxy : partCmp x y < 0 := lt_of_le_of_ne h1 e1
          by_cases e2 : partCmp y z = 0
          · have hk2 : keyOf y = keyOf z := (partCmp_eq_zero_key hy.2 hz.2).1 e2
            have hxz : partCmp x z < 0 := by
              rw [partCmp_eq_kcmp hx.2 hz.2, ← hk2]
              rw [partCmp_eq_kcmp hx.2 hy.2] at hxy
              exact hxy
            split
            · omega
            · omega
          · rw [if_pos e2] at h2
            have hyz : partCmp y z < 0 := lt_of_le_of_ne h2 e2
            have hxz : partCmp x z < 0 := partCmp_lt_trans hx.2 hy.2 hz.2 hxy hyz
            split
            · omega
            · omega

theorem cmpRuns_eq_zero_iff {xs ys : List (List Char)} (gx : GoodRuns xs)
    (gy : GoodRuns ys) :
    cmpRuns xs ys = 0 ↔ xs.map keyOf = ys.map keyOf := by
  induction xs generalizing ys with
  | nil =>
    cases ys with
    | nil => simp [cmpRuns, cmpRunsR]
    | cons y ys' =>
      rw [cmpRuns_nil_cons (gy y (by simp)).1]
      simp
  | cons x xs' ih =>
    cases ys with
    | nil =>
      rw [cmpRuns_cons_nil (gx x (by simp)).1]
      simp
    | cons y ys' =>
      have hx : HomRun x := gx x (by simp)
      have hy : HomRun y := gy y (by simp)
      have gx' : GoodRuns xs' := fun r hr => gx r (by simp [hr])
      have gy' : GoodRuns ys' := fun r hr => gy r (by simp [hr])
      simp only [cmpRuns, List.map_cons, List.cons.injEq]
      by_cases e : partCmp x y = 0
      · rw [if_neg (by simpa using e)]
        rw [ih gx' gy']
        simp [(partCmp_eq_zero_key hx.2 hy.2).1 e]
      · rw [if_pos e]
        constructor
        · intro h
          exact absurd h e
        · rintro ⟨hk, _⟩
          exact absurd ((partCmp_eq_zero_key hx.2 hy.2).2 hk) e

theorem runsAux_good {l : List Char} :
    ∀ {acc : List Char}, acc ≠ [] → GoodPart acc → ∀ r ∈ runsAux acc l, HomRun r := by
  induction l with
  | nil =>
    intro acc hne hgood r hr
    simp only [runsAux, List.mem_singleton] at hr
    subst hr
    obtain ⟨b, hb⟩ := hgood
    exact ⟨by simpa using hne, b, by simpa using hb⟩
  | cons c cs ih =>
    intro acc hne hgood r hr
    cases acc with
    | nil => exact absurd rfl hne
    | cons a as =>
      obtain ⟨b, hb⟩ := hgood
      simp only [runsAux] at hr
      by_cases hcls : (isDigitC c == isDigitC a) = true
      · rw [if_pos hcls] at hr
        have hcb : isDigitC c = b := by
          have ha : isDigitC a = b := hb a (by simp)
          have hca := beq_iff_eq.1 hcls
          rw [hca, ha]
        exact ih (by simp) ⟨b, by
          intro d hd
          rcases List.mem_cons.1 hd with hd1 | hd2
          · subst hd1; exact hcb
          · exact hb d hd2⟩ r hr
      · rw [if_neg hcls] at hr
        rcases List.mem_cons.1 hr with hr1 | hr2
        · subst hr1
          refine ⟨by simp, b, ?_⟩
          intro d hd
          exact hb d (List.mem_reverse.1 hd)
        · exact ih (by simp) ⟨isDigitC c, by simp⟩ r hr2

theorem runs_good (l : List Char) : GoodRuns (runs l) := by
  cases l with
  | nil =>
    intro r hr
    simp [runs] at hr
  | cons c cs =>
    exact runsAux_good (by simp) ⟨isDigitC c, by simp⟩

theorem naturalSort_neg (a b : String) : naturalSort a b = - naturalSort b a :=
  cmpRuns_neg _ _

theorem natLe_trans {a b c : String} (h1 : natLeP a b) (h2 : natLeP b c) :
    natLeP a c :=
  cmpRuns_le_trans (runs_good _) (runs_good _) (runs_good _) h1 h2

theorem natLe_total (a b : String) : natLeP a b ∨ natLeP b a := by
  have h := naturalSort_neg a b
  unfold natLeP
  omega

instance : IsTrans String natLeP := ⟨fun _ _ _ => natLe_trans⟩

instance : IsTotal String natLeP := ⟨natLe_total⟩

theorem naturalSort_eq_zero_iff (a b : String) :
    naturalSort a b = 0 ↔ (runs a.data).map keyOf = (runs b.data).map keyOf :=
  cmpRuns_eq_zero_iff (runs_good _) (runs_good _)

theorem cmpRuns_append (pre l1 l2 : List (List Char)) :
    cmpRuns (pre ++ l1) (pre ++ l2) = cmpRuns l1 l2 := by
  induction pre with
  | nil => rfl
  | cons r rs ih => simp [cmpRuns, partCmp_self r, ih]

theorem cmpRuns_strict_prefix {xs t : List (List Char)} (ht : t ≠ [])
    (g : GoodRuns t) : cmpRuns xs (xs ++ t) < 0 := by
  have h : cmpRuns (xs ++ []) (xs ++ t) = cmpRuns [] t := cmpRuns_append xs [] t
  rw [List.append_nil] at h
  rw [h]
  cases t with
  | nil => exact absurd rfl ht
  | cons u t' =>
    rw [cmpRuns_nil_cons (g u (by simp)).1]
    omega

theorem extractLoop_all_getElem (comicId : String) (payload mkUrl : String → String) :
    ∀ (fs : List String) (i k : Nat),
      (extractLoop comicId (fun f => some (payload f)) mkUrl fs i)[k]? =
        (fs[k]?).map (fun f =>
          ⟨comicId ++ "-page-" ++ Nat.repr (i + k), payload f,
            mkUrl (payload f), i + k⟩) := by
  intro fs
  induction fs with
  | nil => intro i k; simp [extractLoop]
  | cons f fs ih =>
    intro i k
    cases k with
    | zero => simp [extractLoop]
    | succ k' =>
      simp only [extractLoop, List.getElem?_cons_succ]
      rw [ih (i + 1) k']
      have : i + 1 + k' = i + (k' + 1) := by omega
      rw [this]

theorem extractLoop_map_data (comicId : String) (payload mkUrl : String → String) :
    ∀ (fs : List String) (i : Nat),
      (extractLoop comicId (fun f => some (payload f)) mkUrl fs i).map Page.data =
        fs.map payload := by
  intro fs
  induction fs with
  | nil => intro i; simp [extractLoop]
  | cons f fs ih => intro i; simp [extractLoop, ih]

theorem extractLoop_enumFrom (comicId : String) (extractBlob : String → Option String)
    (mkUrl : String → String) :
    ∀ (fs : List String) (i : Nat),
      extractLoop comicId extractBlob mkUrl fs i =
        (List.enumFrom i fs).filterMap (fun p => (extractBlob p.2).map
          (fun blob => ⟨comicId ++ "-page-" ++ Nat.repr p.1, blob, mkUrl blob, p.1⟩)) := by
  intro fs
  induction fs with
  | nil => intro i; simp [extractLoop]
  | cons f fs ih =>
    intro i
    simp only [extractLoop, List.enumFrom, List.filterMap_cons]
    cases h : extractBlob f with
    | none => simp [h, ih]
    | some blob => simp [h, ih]

theorem extractLoop_length (comicId : String) (extractBlob : String → Option String)
    (mkUrl : String → String) :
    ∀ (fs : List String) (i : Nat),
      (extractLoop comicId extractBlob mkUrl fs i).length =
        (fs.filter (fun f => (extractBlob f).isSome)).length := by
  intro fs
  induction fs with
  | nil => intro i; simp [extractLoop]
  | cons f fs ih =>
    intro i
    simp only [extractLoop, List.filter_cons]
    cases h : extractBlob f with
    | none => simp [h, ih]
    | some blob => simp [h, ih]

/-- Claim C1: for every archive and comic id, extraction retains exactly the
non-directory entries whose extension is on the image allow-list, orders them
by the natural comparator, and, when every entry materializes, the page at
position k carries payload of the k-th retained name, ordinal index k and id
comicId-page-k; on the concrete archive 003.png, 001.jpg, cover.txt,
002.webp it yields exactly the three pages 001.jpg, 002.webp, 003.png with
cover.txt excluded. -/
theorem C1_extraction_order_and_ids (files : List ZipEntry) (comicId : String)
    (payload mkUrl : String → String) :
    (extractPagesFromCBR files comicId (fun f => some (payload f)) mkUrl).map Page.data
        = (imageFiles files).map payload
    ∧ (imageFiles files).Perm
        ((files.filter (fun f => !f.dir && isImageFile f.name)).map ZipEntry.name)
    ∧ List.Sorted natLeP (imageFiles files)
    ∧ (∀ k : Nat,
        (extractPagesFromCBR files comicId (fun f => some (payload f)) mkUrl)[k]? =
          ((imageFiles files)[k]?).map (fun f =>
            ⟨comicId ++ "-page-" ++ Nat.repr k, payload f, mkUrl (payload f), k⟩))
    ∧ imageFiles exampleEntries = ["001.jpg", "002.webp", "003.png"]
    ∧ (extractPagesFromCBR exampleEntries "c1" (fun f => some f)
        (fun b => "blob:" ++ b)).map Page.id
        = ["c1-page-0", "c1-page-1", "c1-page-2"] := by
  refine ⟨?_, ?_, ?_, ?_, ?_, ?_⟩
  · exact extractLoop_map_data comicId payload mkUrl (imageFiles files) 0
  · exact List.perm_insertionSort natLeP _
  · exact List.sorted_insertionSort natLeP _
  · intro k
    have h := extractLoop_all_getElem comicId payload mkUrl (imageFiles files) 0 k
    simpa using h
  · decide
  · decide

/-- Claim C5: a failed entry is skipped without failing the whole
extraction: the result is exactly the filterMap of the success oracle over
the enumerated sorted entry list, its length counts only the successful
entries, and surviving pages keep the index of their position in the full
sorted list, as on the concrete archive where entry 002.jpg fails and the
remaining pages keep indices 0 and 2. -/
theorem C5_skip_keeps_indices (files : List ZipEntry) (comicId : String)
    (extractBlob : String → Option String) (mkUrl : String → String) :
    extractPagesFromCBR files comicId extractBlob mkUrl
        = (imageFiles files).enum.filterMap (fun p => (extractBlob p.2).map
            (fun blob => ⟨comicId ++ "-page-" ++ Nat.repr p.1, blob, mkUrl blob, p.1⟩))
    ∧ (extractPagesFromCBR files comicId extractBlob mkUrl).length
        = ((imageFiles files).filter (fun f => (extractBlob f).isSome)).length
    ∧ (extractPagesFromCBR
          [⟨"001.jpg", false⟩, ⟨"002.jpg", false⟩, ⟨"003.jpg", false⟩] "c"
          (fun f => if f = "002.jpg" then none else some f) (fun b => b)).map Page.index
        = [0, 2]
    ∧ (extractPagesFromCBR
          [⟨"001.jpg", false⟩, ⟨"002.jpg", false⟩, ⟨"003.jpg", false⟩] "c"
          (fun f => if f = "002.jpg" then none else some f) (fun b => b)).map Page.id
        = ["c-page-0", "c-page-2"] := by
  refine ⟨?_, ?_, ?_, ?_⟩
  · exact extractLoop_enumFrom comicId extractBlob mkUrl (imageFiles files) 0
  · exact extractLoop_length comicId extractBlob mkUrl (imageFiles files) 0
  · decide
  · decide

/-- The original tie condition of claim C2 fails: the comparator returns a
tie on the distinct names 01 and 1, whose digit runs have equal numeric
value. -/
theorem C2_counterexample_distinct_tie : naturalSort "01" "1" = 0 ∧ "01" ≠ "1" := by
  decide

/-- Claim C2 (amended): the comparator is a deterministic total preorder on
all strings, including the empty string: the induced ordering is transitive
and total, every name ties with itself, and a tie occurs exactly when the
two names have the same run-key sequences (digit runs equal as numbers,
other runs identical), so distinct names such as 01 and 1 can tie. -/
theorem C2_total_preorder :
    (∀ a b c : String, natLeP a b → natLeP b c → natLeP a c)
    ∧ (∀ a b : String, natLeP a b ∨ natLeP b a)
    ∧ (∀ a b : String, naturalSort a b = 0 ↔
        (runs a.data).map keyOf = (runs b.data).map keyOf)
    ∧ (∀ a : String, naturalSort a a = 0) := by
  refine ⟨fun _ _ _ => natLe_trans, natLe_total, naturalSort_eq_zero_iff, ?_⟩
  intro a
  exact (naturalSort_eq_zero_iff a a).2 rfl

/-- Concrete instance of the transitivity component of C2. -/
theorem C2_total_preorder_witness : natLeP "a" "b10" := by
  exact C2_total_preorder.1 "a" "b" "b10" (by decide) (by decide)

/-- Claim C9: digit runs at the same position compare as unsigned integers
and non-digit positions compare lexically, giving page2 before page10 before
page11 and page2 before pagea; and a name whose run sequence is a strict
prefix of the other's sorts first. -/
theorem C9_run_comparison :
    naturalSort "page2.jpg" "page10.jpg" < 0
    ∧ naturalSort "page10.jpg" "page11.jpg" < 0
    ∧ naturalSort "page2.jpg" "pagea.jpg" < 0
    ∧ (∀ a b : String, runs a.data <+: runs b.data → runs a.data ≠ runs b.data →
        naturalSort a b < 0)
    ∧ (∀ (pre sa sb : List (List Char)) (x y : List Char),
        isDigitRun x = true → isDigitRun y = true → digitsVal x < digitsVal y →
        cmpRuns (pre ++ x :: sa) (pre ++ y :: sb) < 0)
    ∧ (∀ (pre sa sb : List (List Char)) (x y : List Char),
        ¬ (isDigitRun x = true ∧ isDigitRun y = true) → lexCmpInt x y < 0 →
        cmpRuns (pre ++ x :: sa) (pre ++ y :: sb) < 0) := by
  refine ⟨by decide, by decide, by decide, ?_, ?_, ?_⟩
  · intro a b hpre hne
    obtain ⟨t, ht⟩ := hpre
    have htne : t ≠ [] := by
      intro h
      subst h
      rw [List.append_nil] at ht
      exact hne ht
    have gt : GoodRuns t := by
      intro r hr
      exact runs_good b.data r (by rw [← ht]; exact List.mem_append_right _ hr)
    unfold naturalSort
    rw [← ht]
    exact cmpRuns_strict_prefix htne gt
  · intro pre sa sb x y hx hy hlt
    rw [cmpRuns_append]
    have hp : partCmp x y = (digitsVal x : Int) - (digitsVal y : Int) := by
      simp [partCmp, hx, hy]
    simp only [cmpRuns]
    rw [if_pos (by omega)]
    omega
  · intro pre sa sb x y hmix hlt
    rw [cmpRuns_append]
    have hp : partCmp x y = lexCmpInt x y := by
      unfold partCmp
      rw [if_neg]
      intro h
      rcases Bool.and_eq_true_iff.1 h with ⟨h1, h2⟩
      exact hmix ⟨h1, h2⟩
    simp only [cmpRuns]
    rw [if_pos (by omega)]
    omega

/-- Concrete instance of the strict-prefix component of C9. -/
theorem C9_run_comparison_witness : naturalSort "a" "a1" < 0 := by
  exact C9_run_comparison.2.2.2.1 "a" "a1" ⟨[['1']], by decide⟩ (by decide)

/-- Claim C3 fails on the code: restoring a saved progress record whose
currentPage is at or beyond the freshly extracted page count leaves the
opened comic with currentPage outside 0..totalPages-1 (here currentPage 5
against 3 extracted pages), violating the declared invariant. -/
theorem C3_restore_breaks_invariant :
    (openComicCore ⟨"c1", "n", "f", "s", [], 0, 0, none⟩
        (extractPagesFromCBR exampleEntries "c1" (fun f => some f)
          (fun b => "blob:" ++ b))
        (some ⟨5, 111⟩)).totalPages = 3
    ∧ (openComicCore ⟨"c1", "n", "f", "s", [], 0, 0, none⟩
        (extractPagesFromCBR exampleEntries "c1" (fun f => some f)
          (fun b => "blob:" ++ b))
        (some ⟨5, 111⟩)).currentPage = 5
    ∧ ¬ ((openComicCore ⟨"c1", "n", "f", "s", [], 0, 0, none⟩
        (extractPagesFromCBR exampleEntries "c1" (fun f => some f)
          (fun b => "blob:" ++ b))
        (some ⟨5, 111⟩)).currentPage
          < (openComicCore ⟨"c1", "n", "f", "s", [], 0, 0, none⟩
              (extractPagesFromCBR exampleEntries "c1" (fun f => some f)
                (fun b => "blob:" ++ b))
              (some ⟨5, 111⟩)).totalPages) := by
  decide

/-- Claim C4: in single-page mode with an interior cursor, the next action
advances by one page under ltr and retreats by one under rtl; at the
boundaries, previousPage at cursor 0 (ltr) and nextPage at the last page
(ltr) leave the cursor unchanged. -/
theorem C4_direction_navigation (k total : Nat) (h0 : 0 < k) (h1 : k < total - 1) :
    nextPageIndex .ltr total k = k + 1
    ∧ nextPageIndex .rtl total k = k - 1
    ∧ previousPageIndex .ltr total 0 = 0
    ∧ nextPageIndex .ltr total (total - 1) = total - 1 := by
  refine ⟨?_, ?_, ?_, ?_⟩
  · simp [nextPageIndex, h1]
  · simp [nextPageIndex, h0]
  · simp [previousPageIndex]
  · simp [nextPageIndex]

/-- Concrete instance of C4 at cursor 1 of 4 pages. -/
theorem C4_direction_navigation_witness :
    nextPageIndex .ltr 4 1 = 2 ∧ nextPageIndex .rtl 4 1 = 0 := by
  have h := C4_direction_navigation 1 4 (by decide) (by decide)
  exact ⟨h.1, h.2.1⟩

/-- Claim C8: saving a progress record for a comic id and reading it back
for the same id returns exactly the saved record. -/
theorem C8_progress_roundtrip (store : Option ProgressMap) (comicId : String)
    (p : Progress) :
    getComicProgress (some (saveComicProgress store comicId p)) comicId = some p := by
  simp [getComicProgress, saveComicProgress]

/-- Claim C10: saving progress for one comic id leaves the stored progress
of every other comic id unchanged. -/
theorem C10_progress_frame (store : Option ProgressMap) (c c' : String)
    (p : Progress) (h : c' ≠ c) :
    getComicProgress (some (saveComicProgress store c p)) c'
      = getComicProgress store c' := by
  cases store <;> simp [getComicProgress, saveComicProgress, h]

/-- Concrete instance of C10 on two distinct comic ids. -/
theorem C10_progress_frame_witness :
    getComicProgress (some (saveComicProgress none "a" ⟨1, 2⟩)) "b"
      = getComicProgress none "b" := by
  exact C10_progress_frame none "a" "b" ⟨1, 2⟩ (by decide)

theorem clampZoom_low (s : ℚ) : 1 / 2 ≤ clampZoom s := le_max_left _ _

theorem clampZoom_high (s : ℚ) : clampZoom s ≤ 5 := by
  apply max_le
  · norm_num
  · exact min_le_left _ _

theorem clampZoom_eq_self {t : ℚ} (h1 : 1 / 2 ≤ t) (h2 : t ≤ 5) :
    clampZoom t = t := by
  unfold clampZoom
  rw [min_eq_right h2, max_eq_right h1]

theorem clampZoom_idem (s : ℚ) : clampZoom (clampZoom s) = clampZoom s :=
  clampZoom_eq_self (clampZoom_low s) (clampZoom_high s)

theorem setZoom_inv (st : ViewState) {z : ℚ} (hlo : 1 / 2 ≤ z) (hhi : z ≤ 5) :
    ViewInv (if z ≤ 1 then ⟨z, 0, 0⟩ else ⟨z, st.posX, st.posY⟩) := by
  split
  · exact ⟨hlo, hhi, fun _ => ⟨rfl, rfl⟩⟩
  · next hle => exact ⟨hlo, hhi, fun hc => absurd hc hle⟩

theorem onPinch_inv {st : ViewState} (cont : Bool) (scale : ℚ)
    (h : ViewInv st) : ViewInv (onPinch cont scale st) := by
  unfold onPinch
  split
  · exact h
  · exact setZoom_inv st (clampZoom_low scale) (clampZoom_high scale)

theorem onWheel_inv {st : ViewState} (cont ctrl : Bool) (dy : ℚ)
    (h : ViewInv st) : ViewInv (onWheel cont ctrl dy st) := by
  unfold onWheel
  split
  · exact h
  · split
    · exact setZoom_inv st (clampZoom_low _) (clampZoom_high _)
    · exact h

theorem zoomIn_inv {st : ViewState} (cont : Bool) (h : ViewInv st) :
    ViewInv (zoomIn cont st) := by
  obtain ⟨hlo, hhi, hreset⟩ := h
  unfold zoomIn
  split
  · exact ⟨hlo, hhi, hreset⟩
  · refine ⟨le_min (by norm_num) (by linarith), min_le_left _ _, fun hz => ?_⟩
    have : st.zoom * (3 / 2) ≤ 1 := by
      rcases min_le_iff.1 hz with h5 | hm
      · linarith
      · exact hm
    exact hreset (by linarith)

theorem zoomOut_inv {st : ViewState} (cont : Bool) (h : ViewInv st) :
    ViewInv (zoomOut cont st) := by
  obtain ⟨hlo, hhi, hreset⟩ := h
  unfold zoomOut
  split
  · exact ⟨hlo, hhi, hreset⟩
  · have hdiv : st.zoom / (3 / 2) = st.zoom * (2 / 3) := by ring
    have hhi' : max (1 / 2) (st.zoom / (3 / 2)) ≤ 5 := by
      apply max_le
      · norm_num
      · rw [hdiv]; linarith
    exact setZoom_inv st (le_max_left _ _) hhi'

theorem initView_inv : ViewInv initView :=
  ⟨by norm_num [initView], by norm_num [initView], fun _ => ⟨rfl, rfl⟩⟩

theorem onPinch_idem (cont : Bool) (scale : ℚ) (st : ViewState) :
    onPinch cont scale (onPinch cont scale st) = onPinch cont scale st := by
  by_cases hcont : cont = true
  · simp [onPinch, hcont]
  · by_cases hz : clampZoom scale ≤ 1 <;> simp [onPinch, hcont, hz]

/-- Claim C6: every zoom-setting operation keeps the session view invariant
(zoom within the half-to-five range, pan reset whenever zoom does not exceed
1), starting from the initial state; the target-value zoom operation (pinch)
is idempotent, as is the clamp itself; and in continuous-scroll mode every
zoom-setting operation is a no-op. -/
theorem C6_zoom_ops (st : ViewState) (cont ctrl : Bool) (scale dy : ℚ)
    (h : ViewInv st) :
    ViewInv initView
    ∧ ViewInv (onPinch cont scale st)
    ∧ ViewInv (onWheel cont ctrl dy st)
    ∧ ViewInv (zoomIn cont st)
    ∧ ViewInv (zoomOut cont st)
    ∧ onPinch cont scale (onPinch cont scale st) = onPinch cont scale st
    ∧ clampZoom (clampZoom scale) = clampZoom scale
    ∧ onPinch true scale st = st ∧ onWheel true ctrl dy st = st
    ∧ zoomIn true st = st ∧ zoomOut true st = st := by
  refine ⟨initView_inv,
    onPinch_inv cont scale h, onWheel_inv cont ctrl dy h, zoomIn_inv cont h,
    zoomOut_inv cont h, onPinch_idem cont scale st, clampZoom_idem scale,
    ?_, ?_, ?_, ?_⟩
  · simp [onPinch]
  · simp [onWheel]
  · simp [zoomIn]
  · simp [zoomOut]

/-- Concrete instance of C6: pinching to scale 3 from the initial state
keeps the view invariant. -/
theorem C6_zoom_ops_witness : ViewInv (onPinch false 3 initView) :=
  (C6_zoom_ops initView false false 3 0 initView_inv).2.1

/-- Claim C7: the prefetcher requests exactly the pages of the window from
the cursor of the given size, clipped to the list bounds, and it completes
with one settled outcome per requested page for every decode oracle,
including the oracle that rejects every page. -/
theorem C7_preload_window (decode : String → Bool) (pages : List Page)
    (cursor count : Nat) :
    (preloadPages decode pages cursor count).length
        = min count (pages.length - cursor)
    ∧ (∀ i : Nat, (preloadPages decode pages cursor count)[i]? =
        (if i < count then pages[cursor + i]? else none).map
          (fun p => preloadImage decode p.url))
    ∧ preloadPages (fun _ => false) pages cursor count
        = ((pages.drop cursor).take count).map (fun p => Except.error p.url) := by
  refine ⟨?_, ?_, ?_⟩
  · simp [preloadPages]
  · intro i
    simp only [preloadPages, List.getElem?_map, List.getElem?_take,
      List.getElem?_drop]
  · simp [preloadPages, preloadImage]

end Comically
